import Mathlib

/-!
Verification of the document retrieval engine of the repository
(`src/lib/documentProcessor.js`, `src/lib/ragService.js`, and the
`search_documents` tool handler in `src/pages/ConsolePage.tsx`).

JavaScript strings are modelled as `List Char`; JavaScript `Map` is modelled
as an association list in insertion order; floating point relevance scores
are modelled as exact rationals (all scores are ratios of small naturals,
and the sort comparator only compares scores).
-/

namespace DocProc

/-! ### Definitions: the embedded program -/

/-- The characters treated as whitespace by the JS regexes `\s` and by
`String.prototype.trim` (ASCII range). -/
def isJsSpace (c : Char) : Bool :=
  c = ' ' || c = '\t' || c = '\n' || c = '\r' || c = '\x0b' || c = '\x0c'

/-- JS `\w` word characters: ASCII alphanumerics and underscore. -/
def isWordChar (c : Char) : Bool :=
  c.isAlphanum || c = '_'

/-- Sentence-terminating characters of the chunker regex `[.!?]+`. -/
def isSentEnd (c : Char) : Bool :=
  c = '.' || c = '!' || c = '?'

/-- `String.prototype.trim`: drop leading and trailing whitespace. -/
def jsTrim (l : List Char) : List Char :=
  ((l.dropWhile isJsSpace).reverse.dropWhile isJsSpace).reverse

/-- Helper for `jsSplitRuns`: returns the fields of the suffix together with
a flag telling whether the suffix starts with a separator character. -/
def splitRunsAux (p : Char → Bool) : List Char → List (List Char) × Bool
  | [] => ([[]], false)
  | c :: cs =>
    let r := splitRunsAux p cs
    if p c then
      if r.2 then (r.1, true) else ([] :: r.1, true)
    else
      ((c :: r.1.headD []) :: r.1.tail, false)

/-- JS `str.split(regex)` where the regex matches maximal nonempty runs of
characters satisfying `p` (such as `/[.!?]+/` or `/\s+/`). -/
def jsSplitRuns (p : Char → Bool) (l : List Char) : List (List Char) :=
  (splitRunsAux p l).1

/-- JS `str.split(c)` for a single-character separator: splits at every
occurrence of `c` (no run collapsing). -/
def splitCharAux (sep : Char) : List Char → List (List Char)
  | [] => [[]]
  | c :: cs =>
    let r := splitCharAux sep cs
    if c = sep then [] :: r else (c :: r.headD []) :: r.tail

/-- JS `str.split(c)` on a single-character separator. -/
def jsSplitChar (sep : Char) (l : List Char) : List (List Char) :=
  splitCharAux sep l

/-- JS `arr.slice(0, k)` where `k` may be negative (negative `k` counts from
the end of the array). -/
def jsSliceTo {α : Type} (l : List α) (k : Int) : List α :=
  if 0 ≤ k then l.take k.toNat else l.take (l.length - k.natAbs)

/-- JS `arr.slice(-k)` for a natural number `k`.  For `k = 0` the index `-0`
is just `0`, so the whole array is returned. -/
def jsSliceNeg {α : Type} (l : List α) (k : Nat) : List α :=
  if k = 0 then l else l.drop (l.length - k)

/-- First-occurrence deduplication, as performed by `[...new Set(words)]`. -/
def jsDedupAux {α : Type} [DecidableEq α] (seen : List α) : List α → List α
  | [] => []
  | x :: xs => if x ∈ seen then jsDedupAux seen xs else x :: jsDedupAux (x :: seen) xs

/-- `[...new Set(l)]`: keep the first occurrence of each element. -/
def jsDedup {α : Type} [DecidableEq α] (l : List α) : List α :=
  jsDedupAux [] l

/-- The stop word set of `extractKeywords` (`documentProcessor.js` line 392),
transcribed verbatim. -/
def stopWords : List (List Char) :=
  (["the", "a", "an", "and", "or", "but", "in", "on", "at", "to", "for",
    "of", "with", "by", "is", "are", "was", "were", "be", "been", "have",
    "has", "had", "do", "does", "did", "will", "would", "could", "should",
    "may", "might", "can", "this", "that", "these", "those", "i", "you",
    "he", "she", "it", "we", "they", "me", "him", "her", "us",
    "them"] : List String).map String.data

/-- `extractKeywords` (`documentProcessor.js` lines 391-400): lower-case,
strip all characters that are neither word characters nor whitespace,
split on whitespace runs, keep tokens of length `> 2` that are not stop
words, and deduplicate keeping first occurrences. -/
def extractKeywords (text : List Char) : List (List Char) :=
  jsDedup
    ((jsSplitRuns isJsSpace
        ((text.map Char.toLower).filter (fun c => isWordChar c || isJsSpace c))).filter
      (fun w => decide (2 < w.length ∧ w ∉ stopWords)))

/-- `calculateRelevance` (`documentProcessor.js` lines 442-447):
`intersection.length / max(queryKeywords.length, 1)` where `intersection`
is the sublist of query keywords contained in the chunk keywords. -/
def calculateRelevance (queryKeywords chunkKeywords : List (List Char)) : ℚ :=
  ((queryKeywords.filter (fun w => decide (w ∈ chunkKeywords))).length : ℚ) /
    ((max queryKeywords.length 1 : ℕ) : ℚ)

/-- The document metadata built by `processDocument` (lines 301-305):
file name, extension-derived file type, and ingestion timestamp. -/
structure Metadata where
  fileName : List Char
  fileType : List Char
  processedAt : List Char
  deriving DecidableEq

/-- The per-chunk metadata (`{...metadata, pageNum, chunkIndex}`). -/
structure ChunkMeta where
  fileName : List Char
  fileType : List Char
  processedAt : List Char
  pageNum : Nat
  chunkIndex : Nat
  deriving DecidableEq

/-- A chunk as produced by `createChunks`. -/
structure Chunk where
  id : List Char
  content : List Char
  meta : ChunkMeta
  deriving DecidableEq

/-- `simpleEmbedding` (lines 405-414): a placeholder 1536-vector whose `i`-th
coordinate is `words[i].length / 10` for `i` below the word count. -/
def simpleEmbedding (text : List Char) : List ℚ :=
  let words := jsSplitRuns isJsSpace (text.map Char.toLower)
  (List.range 1536).map (fun i =>
    if i < words.length then ((words.getD i []).length : ℚ) / 10 else 0)

/-- A value of the vector store: `{ chunk, keywords, embedding }`. -/
structure Entry where
  chunk : Chunk
  keywords : List (List Char)
  embedding : List ℚ
  deriving DecidableEq

/-- The in-memory vector store: a JS `Map` from chunk id to entry, modelled
as an association list in insertion order. -/
abbrev Store : Type := List (List Char × Entry)

/-- JS `Map.prototype.set`: overwrite in place if the key is present
(keeping its insertion position), otherwise append. -/
def mapSet (store : Store) (k : List Char) (v : Entry) : Store :=
  if store.any (fun p => decide (p.1 = k)) then
    store.map (fun p => if p.1 = k then (k, v) else p)
  else
    store ++ [(k, v)]

/-- The index entry built for a chunk by `addToVectorStore`. -/
def mkEntry (c : Chunk) : Entry :=
  { chunk := c
    keywords := extractKeywords c.content
    embedding := simpleEmbedding c.content }

/-- `addToVectorStore` (lines 376-386): index each chunk under its id. -/
def addToVectorStore (store : Store) (chunks : List Chunk) : Store :=
  chunks.foldl (fun st c => mapSet st c.id (mkEntry c)) store

/-- A search result: the chunk fields spread together with the relevance
score and a human-readable source string. -/
structure SearchResult where
  id : List Char
  content : List Char
  meta : ChunkMeta
  relevance : ℚ
  source : List Char
  deriving DecidableEq

/-- The source string `"<fileName> (Page <pageNum>)"`. -/
def sourceString (m : ChunkMeta) : List Char :=
  m.fileName ++ " (Page ".data ++ Nat.toDigits 10 m.pageNum ++ ")".data

/-- The result record pushed by `searchChunks` for a store entry. -/
def resultOf (qk : List (List Char)) (p : List Char × Entry) : SearchResult :=
  { id := p.2.chunk.id
    content := p.2.chunk.content
    meta := p.2.chunk.meta
    relevance := calculateRelevance qk p.2.keywords
    source := sourceString p.2.chunk.meta }

/-- The unsorted result list of `searchChunks`: one result per store entry
whose relevance is strictly positive, in store (insertion) order. -/
def positiveResults (store : Store) (qk : List (List Char)) : List SearchResult :=
  store.filterMap (fun p =>
    if 0 < calculateRelevance qk p.2.keywords then some (resultOf qk p) else none)

/-- Stable insertion of a result into a list sorted by non-increasing
relevance: the new element goes before the first strictly smaller one. -/
def insertDesc (x : SearchResult) : List SearchResult → List SearchResult
  | [] => [x]
  | y :: ys => if x.relevance < y.relevance then y :: insertDesc x ys else x :: y :: ys

/-- The stable descending sort performed by
`results.sort((a, b) => b.relevance - a.relevance)` (JS `sort` is stable
and the comparator is a total preorder on the scores, so the output is
determined: sorted by non-increasing relevance, ties in insertion order). -/
def sortDesc : List SearchResult → List SearchResult
  | [] => []
  | x :: xs => insertDesc x (sortDesc xs)

/-- `searchChunks` (lines 419-437): extract query keywords, score every
store entry, keep strictly positive scores, sort by descending relevance
and take the first `topK` (JS `slice` semantics for the count). -/
def searchChunks (store : Store) (query : List Char) (topK : Int := 5) :
    List SearchResult :=
  jsSliceTo (sortDesc (positiveResults store (extractKeywords query))) topK

/-- The loop state of `createChunks`: emitted chunks, the running buffer
`currentChunk`, and the page counter. -/
structure ChunkState where
  chunks : List Chunk
  buf : List Char
  pageNum : Nat
  deriving DecidableEq

/-- The chunk pushed by `createChunks` from the current state: trimmed
buffer content, id `"<fileName>_chunk_<n>"` and 1-based `chunkIndex`. -/
def emitChunk (meta0 : Metadata) (st : ChunkState) : Chunk :=
  { id := meta0.fileName ++ "_chunk_".data ++ Nat.toDigits 10 (st.chunks.length + 1)
    content := jsTrim st.buf
    meta :=
      { fileName := meta0.fileName
        fileType := meta0.fileType
        processedAt := meta0.processedAt
        pageNum := st.pageNum
        chunkIndex := st.chunks.length + 1 } }

/-- The accumulate-or-emit part of the `createChunks` loop body
(lines 331-349), applied to the already-trimmed sentence `s`: if appending
`s` would exceed `chunkSize` and the buffer is non-empty, emit the buffer
and seed the next one with the last `floor(overlap/5)` space-separated
words followed by `s`; otherwise append `s` to the buffer. -/
def chunkAccum (meta0 : Metadata) (chunkSize overlap : Nat) (st : ChunkState)
    (s : List Char) : ChunkState :=
  if chunkSize < st.buf.length + s.length ∧ 0 < st.buf.length then
    { chunks := st.chunks ++ [emitChunk meta0 st]
      buf := List.intercalate [' ']
          (jsSliceNeg (jsSplitChar ' ' st.buf) (overlap / 5)) ++ ' ' :: s
      pageNum := st.pageNum }
  else
    { st with buf := if st.buf = [] then s else st.buf ++ ' ' :: s }

/-- One iteration of the `createChunks` loop (lines 328-355): trim the
sentence, accumulate or emit, then bump the page counter if the buffer now
has more than 300 space-separated words. -/
def chunkStep (meta0 : Metadata) (chunkSize overlap : Nat) (st : ChunkState)
    (sentence : List Char) : ChunkState :=
  let st1 := chunkAccum meta0 chunkSize overlap st (jsTrim sentence)
  if 300 < (jsSplitChar ' ' st1.buf).length then
    { st1 with pageNum := st1.pageNum + 1 }
  else
    st1

/-- The final step of `createChunks` (lines 358-368): emit the remaining
buffer as a last chunk when it is non-empty after trimming. -/
def finalizeChunks (meta0 : Metadata) (st : ChunkState) : List Chunk :=
  if jsTrim st.buf = [] then st.chunks else st.chunks ++ [emitChunk meta0 st]

/-- `createChunks` (lines 321-371): split the content on sentence-ending
punctuation runs, drop fragments that are empty after trimming, fold the
loop body over the sentences, and finalize. -/
def createChunks (content : List Char) (meta0 : Metadata)
    (chunkSize : Nat := 500) (overlap : Nat := 100) : List Chunk :=
  let sentences := (jsSplitRuns isSentEnd content).filter (fun s => decide (jsTrim s ≠ []))
  finalizeChunks meta0
    (sentences.foldl (chunkStep meta0 chunkSize overlap)
      { chunks := [], buf := [], pageNum := 1 })

/-- A record of the `documents` list: name, chunk count, and the 200
character preview stored by `processDocument`. -/
structure DocRecord where
  fileName : List Char
  chunks : Nat
  content : List Char
  deriving DecidableEq

/-- The mutable state of a `DocumentProcessor`: the vector store and the
documents list. -/
structure PState where
  store : Store
  documents : List DocRecord
  deriving DecidableEq

/-- `fileName.split('.').pop()`: the extension-derived file type tag. -/
def fileExt (fileName : List Char) : List Char :=
  (jsSplitChar '.' fileName).getLastD []

/-- `processDocument` (lines 296-316): if the content is non-empty after
trimming, chunk it with the default sizes, index the chunks, and record the
document with its chunk count and a 200-character preview. -/
def processDocument (st : PState) (processedAt fileName content : List Char) : PState :=
  if jsTrim content = [] then st
  else
    let meta0 : Metadata :=
      { fileName := fileName, fileType := fileExt fileName, processedAt := processedAt }
    let chunks := createChunks content meta0 500 100
    { store := addToVectorStore st.store chunks
      documents := st.documents ++
        [{ fileName := fileName, chunks := chunks.length,
           content := content.take 200 ++ "...".data }] }

/-- The aggregate statistics returned by `getStats` (lines 452-461). -/
structure Stats where
  totalDocuments : Nat
  totalChunks : Nat
  documents : List (List Char × Nat)
  deriving DecidableEq

/-- `getStats`: document count, vector store size, and per-document
`{fileName, chunks}`. -/
def getStats (st : PState) : Stats :=
  { totalDocuments := st.documents.length
    totalChunks := st.store.length
    documents := st.documents.map (fun d => (d.fileName, d.chunks)) }

/-- The behaviour of the external file object during extraction:
`textResult` models `file.text()` (which can reject), `mammothResult`
models `mammoth.extractRawText` (which can throw), and `name` models the
`name` property read by the PDF placeholder. -/
structure JsFile where
  textResult : Except (List Char) (List Char)
  mammothResult : Except (List Char) (List Char)
  name : List Char

/-- `extractWordText` (lines 164-175): on a mammoth error the exception is
caught and a bracketed placeholder string is returned instead. -/
def extractWordText (f : JsFile) : List Char :=
  match f.mammothResult with
  | .ok v => v
  | .error e => "[Error extracting text from Word document: ".data ++ e ++ "]".data

/-- `extractPDFText` (lines 180-188): always returns the placeholder. -/
def extractPDFText (f : JsFile) : List Char :=
  "[PDF content from ".data ++ f.name ++
    " - PDF processing will be implemented soon]".data

/-- `extractTextFromFile` (lines 139-159): dispatch on the lower-cased
extension; unsupported types yield `none`, and an exception from
`file.text()` is caught and converted to `none`. -/
def extractTextFromFile (f : JsFile) (fileName : List Char) : Option (List Char) :=
  let ft := (fileExt fileName).map Char.toLower
  if ft = "pdf".data then some (extractPDFText f)
  else if ft = "docx".data ∨ ft = "doc".data then some (extractWordText f)
  else if ft = "txt".data then
    match f.textResult with
    | .ok v => some v
    | .error _ => none
  else none

/-- The outcome of fetching one discovered file: the fetch (or `blob()`)
threw, the response was not `ok`, or a file object was obtained. -/
inductive FetchOutcome where
  | fail (msg : List Char)
  | notOk
  | ok (f : JsFile)

/-- The extracted content of one discovered file, if any: a failed or
non-`ok` fetch is skipped by the `loadAssetsDocuments` loop, otherwise the
file goes through `extractTextFromFile`. -/
def extractedContent (out : FetchOutcome) (fileName : List Char) : Option (List Char) :=
  match out with
  | .fail _ => none
  | .notOk => none
  | .ok f => extractTextFromFile f fileName

/-- One iteration of the `loadAssetsDocuments` loop (lines 62-82): keep the
file only when extraction produced content that is non-empty after
trimming. -/
def loadStep (docs : List (List Char × List Char)) (fc : List Char × FetchOutcome) :
    List (List Char × List Char) :=
  match extractedContent fc.2 fc.1 with
  | none => docs
  | some content => if jsTrim content = [] then docs else docs ++ [(fc.1, content)]

/-- `loadAssetsDocuments` (lines 46-98): process each discovered file,
skipping failures, and collect the surviving `(fileName, content)` pairs. -/
def loadAssetsDocuments (files : List (List Char × FetchOutcome)) :
    List (List Char × List Char) :=
  files.foldl loadStep []

/-- `initialize` (lines 12-41): load the documents of the batch and process
each surviving one in order, starting from the freshly cleared state. -/
def initializeProcessor (files : List (List Char × FetchOutcome)) (processedAt : List Char) :
    PState :=
  (loadAssetsDocuments files).foldl
    (fun st fc => processDocument st processedAt fc.1 fc.2) { store := [], documents := [] }

/-- A result of `ragService.searchDocuments`: the `searchChunks` result
re-shaped for the tool layer. -/
structure RagResult where
  content : List Char
  source : List Char
  relevance : ℚ
  fileName : List Char
  pageNum : Nat
  chunkIndex : Nat
  deriving DecidableEq

/-- `ragService.searchDocuments`: delegate to `searchChunks` and project
each result onto the tool-facing shape. -/
def searchDocuments (store : Store) (query : List Char) (topK : Int := 5) :
    List RagResult :=
  (searchChunks store query topK).map (fun r =>
    { content := r.content, source := r.source, relevance := r.relevance,
      fileName := r.meta.fileName, pageNum := r.meta.pageNum,
      chunkIndex := r.meta.chunkIndex })

/-- The structured value returned across the `search_documents` tool
boundary (`ConsolePage.tsx` lines 564-606): exactly one of the three
statuses. -/
inductive ToolResponse where
  | noResults (message query : List Char)
  | success (message query : List Char) (totalResults : Nat)
      (documentContent : List Char) (sources : List (List Char)) (summary : List Char)
  | error (err message : List Char)
  deriving DecidableEq

/-- The three-way status tag of a tool response. -/
inductive ToolStatus where
  | success
  | noResults
  | error
  deriving DecidableEq

/-- The status carried by a tool response. -/
def statusOf : ToolResponse → ToolStatus
  | .noResults _ _ => .noResults
  | .success _ _ _ _ _ _ => .success
  | .error _ _ => .error

/-- The fixed no-result message of the tool handler. -/
def noResultsMsg : List Char :=
  "No relevant documents found for your query.".data

/-- The success message `"Found <n> relevant document chunks for your query."`. -/
def successMsg (n : Nat) : List Char :=
  "Found ".data ++ Nat.toDigits 10 n ++ " relevant document chunks for your query.".data

/-- The fixed error text of the tool handler's catch branch. -/
def searchErrText : List Char :=
  "Failed to search documents".data

/-- One formatted result block: `"Result <i+1> (<source>):\n<content>"`. -/
def formatOneResult (i : Nat) (r : RagResult) : List Char :=
  "Result ".data ++ Nat.toDigits 10 (i + 1) ++ " (".data ++ r.source ++
    "):".data ++ '\n' :: r.content

/-- The formatted result blocks joined with blank lines. -/
def formattedResults (results : List RagResult) : List Char :=
  List.intercalate "\n\n".data (results.enum.map (fun p => formatOneResult p.1 p.2))

/-- Truncation to `n` characters with an ellipsis marker, as used for the
summary (400) and the document content (2000). -/
def truncateWith (n : Nat) (l : List Char) : List Char :=
  if n < l.length then l.take n ++ "...".data else l

/-- The `search_documents` tool handler (`ConsolePage.tsx` lines 564-606):
the outcome of the awaited `searchDocuments` call (a value, or a raised
exception caught by the handler) is mapped to exactly one of the three
statuses; nothing is re-thrown across the boundary. -/
def searchDocumentsTool (query : List Char)
    (outcome : Except (List Char) (List RagResult)) : ToolResponse :=
  match outcome with
  | .error e => .error searchErrText e
  | .ok results =>
    if results.length = 0 then .noResults noResultsMsg query
    else
      .success (successMsg results.length) query results.length
        (truncateWith 2000 (formattedResults results))
        (results.map (fun r => r.source))
        (truncateWith 400 (formattedResults results))

/-- The comparison key ordering used by the sort: non-increasing relevance. -/
def relGE (a b : SearchResult) : Prop := b.relevance ≤ a.relevance

/-- A one-entry sample store used by concrete witnesses. -/
def sampleMeta : ChunkMeta :=
  { fileName := "f.txt".data
    fileType := "txt".data
    processedAt := []
    pageNum := 1
    chunkIndex := 1 }

/-- The sample chunk of `sampleStore`. -/
def sampleChunk : Chunk :=
  { id := "c1".data
    content := "alpha beta".data
    meta := sampleMeta }

/-- The sample store entry. -/
def sampleEntry : Entry :=
  { chunk := sampleChunk
    keywords := ["alpha".data, "beta".data]
    embedding := [] }

/-- A concrete one-entry store. -/
def sampleStore : Store := [("c1".data, sampleEntry)]

/-- Modelled from the spec text of C3: "the last `floor(overlap/5)` words"
of a buffer, where words are the space-separated segments. -/
def specLastWords (k : Nat) (buf : List Char) : List (List Char) :=
  (jsSplitChar ' ' buf).drop ((jsSplitChar ' ' buf).length - k)

/-- Modelled from the spec text of C3: accumulate sentences into a buffer;
when appending the next sentence would push the buffer length past
`chunkSize` and the buffer is non-empty, emit the buffer and seed the new
buffer with the last `floor(overlap/5)` words of the emitted buffer
followed by the triggering sentence; the final non-empty buffer is always
emitted. -/
def chunkEmitSpec (chunkSize overlap : Nat) :
    List Char → List (List Char) → List (List Char)
  | buf, [] => if jsTrim buf = [] then [] else [jsTrim buf]
  | buf, s :: rest =>
    if chunkSize < buf.length + s.length ∧ buf ≠ [] then
      jsTrim buf ::
        chunkEmitSpec chunkSize overlap
          (List.intercalate [' '] (specLastWords (overlap / 5) buf) ++ ' ' :: s) rest
    else
      chunkEmitSpec chunkSize overlap (if buf = [] then s else buf ++ ' ' :: s) rest

/-- Modelled from the spec text of C3: split the content on `.`, `!`, `?`,
discard fragments empty after trimming, and run the emission loop on the
trimmed sentences starting from an empty buffer. -/
def createChunksSpec (content : List Char) (chunkSize overlap : Nat) :
    List (List Char) :=
  chunkEmitSpec chunkSize overlap []
    (((jsSplitRuns isSentEnd content).filter
        (fun s => decide (jsTrim s ≠ []))).map jsTrim)

/-- The id string `"<fileName>_chunk_<i>"`. -/
def chunkIdString (meta0 : Metadata) (i : Nat) : List Char :=
  meta0.fileName ++ "_chunk_".data ++ Nat.toDigits 10 i

/-- The invariant maintained by the `createChunks` loop: the buffer is
empty or contains a non-whitespace character, every emitted chunk has
non-empty trimmed content, and the emitted chunks carry the 1-based
ordinals in their `chunkIndex` and id. -/
def ChunkInv (meta0 : Metadata) (st : ChunkState) : Prop :=
  (st.buf = [] ∨ ∃ c ∈ st.buf, isJsSpace c = false) ∧
  (∀ c ∈ st.chunks, jsTrim c.content ≠ []) ∧
  st.chunks.map (fun c => c.meta.chunkIndex) = List.range' 1 st.chunks.length ∧
  st.chunks.map (fun c => c.id) =
    (List.range' 1 st.chunks.length).map (chunkIdString meta0)

/-- The document-level metadata used by concrete witnesses. -/
def sampleMeta0 : Metadata :=
  { fileName := "f.txt".data
    fileType := "txt".data
    processedAt := [] }

/-- The page-counter invariant of the `createChunks` loop: the counter is
at least 1 and every emitted chunk's page number is between 1 and the
current counter, with the emitted page numbers non-decreasing. -/
def PageInv (st : ChunkState) : Prop :=
  1 ≤ st.pageNum ∧
  (∀ c ∈ st.chunks, 1 ≤ c.meta.pageNum ∧ c.meta.pageNum ≤ st.pageNum) ∧
  (st.chunks.map (fun c => c.meta.pageNum)).Pairwise (· ≤ ·)

/-- A `.txt` file whose `text()` call rejects: its extraction yields no
content, so the file is skipped. -/
def failingTxtFile : JsFile :=
  { textResult := Except.error "io error".data
    mammothResult := Except.ok []
    name := "bad.txt".data }

/-- A `.txt` file whose `text()` call succeeds. -/
def goodTxtFile : JsFile :=
  { textResult := Except.ok "Hello world. Goodbye planet.".data
    mammothResult := Except.ok []
    name := "good.txt".data }

/-- A `.docx` file whose `mammoth` extraction throws. -/
def failingDocxFile : JsFile :=
  { textResult := Except.ok []
    mammothResult := Except.error "boom".data
    name := "x.docx".data }

/-! ### Theorems -/

theorem mem_insertDesc {z x : SearchResult} {l : List SearchResult} :
    z ∈ insertDesc x l ↔ z = x ∨ z ∈ l := by
  induction l with
  | nil => simp [insertDesc]
  | cons y ys ih =>
    by_cases h : x.relevance < y.relevance
    · simp only [insertDesc, if_pos h, List.mem_cons, ih]
      tauto
    · simp only [insertDesc, if_neg h, List.mem_cons]

theorem length_insertDesc (x : SearchResult) (l : List SearchResult) :
    (insertDesc x l).length = l.length + 1 := by
  induction l with
  | nil => rfl
  | cons y ys ih =>
    by_cases h : x.relevance < y.relevance
    · simp [insertDesc, if_pos h, ih]
    · simp [insertDesc, if_neg h]

theorem pairwise_insertDesc {x : SearchResult} {l : List SearchResult}
    (hl : l.Pairwise relGE) : (insertDesc x l).Pairwise relGE := by
  induction l with
  | nil => simp [insertDesc, List.pairwise_cons]
  | cons y ys ih =>
    rw [List.pairwise_cons] at hl
    by_cases h : x.relevance < y.relevance
    · rw [insertDesc, if_pos h, List.pairwise_cons]
      refine ⟨fun z hz => ?_, ih hl.2⟩
      rcases mem_insertDesc.mp hz with rfl | hz
      · exact le_of_lt h
      · exact hl.1 z hz
    · rw [insertDesc, if_neg h, List.pairwise_cons]
      refine ⟨fun z hz => ?_, List.pairwise_cons.mpr hl⟩
      rcases List.mem_cons.mp hz with rfl | hz
      · exact le_of_not_lt h
      · exact le_trans (hl.1 z hz) (le_of_not_lt h)

theorem mem_sortDesc {z : SearchResult} {l : List SearchResult} :
    z ∈ sortDesc l ↔ z ∈ l := by
  induction l with
  | nil => simp [sortDesc]
  | cons x xs ih => simp [sortDesc, mem_insertDesc, ih]

theorem length_sortDesc (l : List SearchResult) :
    (sortDesc l).length = l.length := by
  induction l with
  | nil => rfl
  | cons x xs ih => simp [sortDesc, length_insertDesc, ih]

theorem pairwise_sortDesc (l : List SearchResult) :
    (sortDesc l).Pairwise relGE := by
  induction l with
  | nil => exact List.Pairwise.nil
  | cons x xs ih => exact pairwise_insertDesc ih

/-! ### Lemmas about the unsorted positive-score results -/

theorem mem_positiveResults {r : SearchResult} {store : Store}
    {qk : List (List Char)} :
    r ∈ positiveResults store qk ↔
      ∃ p ∈ store, 0 < calculateRelevance qk p.2.keywords ∧ r = resultOf qk p := by
  simp only [positiveResults, List.mem_filterMap]
  constructor
  · rintro ⟨p, hp, hsome⟩
    by_cases h : 0 < calculateRelevance qk p.2.keywords
    · rw [if_pos h] at hsome
      exact ⟨p, hp, h, (Option.some_injective _ hsome).symm⟩
    · rw [if_neg h] at hsome
      exact absurd hsome (Option.noConfusion)
  · rintro ⟨p, hp, hpos, rfl⟩
    exact ⟨p, hp, by rw [if_pos hpos]⟩

theorem length_positiveResults (store : Store) (qk : List (List Char)) :
    (positiveResults store qk).length =
      (store.filter (fun p => decide (0 < calculateRelevance qk p.2.keywords))).length := by
  induction store with
  | nil => rfl
  | cons p t ih =>
    by_cases h : 0 < calculateRelevance qk p.2.keywords
    · simp only [positiveResults, List.filterMap_cons, if_pos h, List.filter_cons,
        decide_eq_true h, List.length_cons]
      simpa [positiveResults] using ih
    · simp only [positiveResults, List.filterMap_cons, if_neg h, List.filter_cons,
        decide_eq_false h]
      simpa [positiveResults] using ih

/-- C1.
For every query `Q` and every `topK = K ≥ 1`, `searchChunks(Q, K)` returns
only results with strictly positive relevance, sorted in non-increasing
order of relevance, and its length is
`min(K, number of indexed chunks with score > 0)`. -/
theorem searchChunks_ranked_topK (store : Store) (q : List Char) (K : Int)
    (hK : 1 ≤ K) :
    (∀ r ∈ searchChunks store q K, 0 < r.relevance) ∧
    (searchChunks store q K).Pairwise (fun a b => b.relevance ≤ a.relevance) ∧
    (searchChunks store q K).length =
      min K.toNat
        ((store.filter
          (fun p => decide (0 < calculateRelevance (extractKeywords q) p.2.keywords))).length) := by
  have h0 : (0 : Int) ≤ K := le_trans (by norm_num) hK
  have hdef : searchChunks store q K =
      (sortDesc (positiveResults store (extractKeywords q))).take K.toNat := by
    rw [searchChunks, jsSliceTo, if_pos h0]
  refine ⟨?_, ?_, ?_⟩
  · intro r hr
    rw [hdef] at hr
    have hr2 : r ∈ sortDesc (positiveResults store (extractKeywords q)) :=
      List.take_subset _ _ hr
    obtain ⟨p, _, hpos, rfl⟩ := mem_positiveResults.mp (mem_sortDesc.mp hr2)
    exact hpos
  · rw [hdef]
    exact List.Pairwise.sublist (List.take_sublist _ _) (pairwise_sortDesc _)
  · rw [hdef, List.length_take, length_sortDesc, length_positiveResults]

/-- Witness for C1 at a concrete store, query, and `K = 1`. -/
theorem searchChunks_ranked_topK_witness :
    (1 : Int) ≤ 1 ∧
    ((∀ r ∈ searchChunks sampleStore "alpha".data 1, 0 < r.relevance) ∧
      (searchChunks sampleStore "alpha".data 1).Pairwise
        (fun a b => b.relevance ≤ a.relevance) ∧
      (searchChunks sampleStore "alpha".data 1).length =
        min (Int.toNat 1)
          ((sampleStore.filter
            (fun p => decide (0 < calculateRelevance (extractKeywords "alpha".data)
              p.2.keywords))).length)) :=
  ⟨by norm_num, searchChunks_ranked_topK sampleStore "alpha".data 1 (by norm_num)⟩

/-- The iterated `dropLast` view of dropping the last `n` elements. -/
theorem dropLast_iterate_eq_take {α : Type} (n : Nat) (l : List α) :
    List.dropLast^[n] l = l.take (l.length - n) := by
  induction n generalizing l with
  | zero => simp
  | succ m ih =>
    rw [Function.iterate_succ_apply, ih, List.length_dropLast, List.dropLast_eq_take,
      List.take_take]
    congr 1
    omega

/-- C10.
At the public search interface, `topK = 0` yields the empty list, and a
negative `topK` yields the ranked positive-score results with the last
`|topK|` of them removed (JS `slice` semantics), rather than clamping
`topK` to a minimum of 1. -/
theorem searchChunks_zero_and_negative_topK (store : Store) (q : List Char) :
    searchChunks store q 0 = [] ∧
    ∀ K : Int, K < 0 →
      searchChunks store q K =
        List.dropLast^[K.natAbs] (sortDesc (positiveResults store (extractKeywords q))) := by
  constructor
  · rw [searchChunks, jsSliceTo, if_pos le_rfl]
    simp
  · intro K hK
    rw [searchChunks, jsSliceTo, if_neg (by omega), dropLast_iterate_eq_take,
      length_sortDesc]

/-- Witness for C10 at a concrete store, query, and `K = -1`. -/
theorem searchChunks_zero_and_negative_topK_witness :
    ((-1 : Int) < 0) ∧
    searchChunks ([] : Store) "alpha".data (-1) =
      List.dropLast^[(-1 : Int).natAbs]
        (sortDesc (positiveResults ([] : Store) (extractKeywords "alpha".data))) :=
  ⟨by norm_num,
    (searchChunks_zero_and_negative_topK ([] : Store) "alpha".data).2 (-1) (by norm_num)⟩

/-! ### Lemmas about keyword extraction and relevance -/

theorem jsDedupAux_spec {α : Type} [DecidableEq α] :
    ∀ (l seen : List α),
      (jsDedupAux seen l).Nodup ∧ ∀ x ∈ jsDedupAux seen l, x ∉ seen := by
  intro l
  induction l with
  | nil => intro seen; simp [jsDedupAux]
  | cons x xs ih =>
    intro seen
    by_cases hx : x ∈ seen
    · simpa [jsDedupAux, hx] using ih seen
    · rw [jsDedupAux, if_neg hx]
      refine ⟨List.nodup_cons.mpr ⟨fun hmem => ?_, (ih (x :: seen)).1⟩, ?_⟩
      · exact (ih (x :: seen)).2 x hmem (List.mem_cons_self x seen)
      · intro y hy
        rcases List.mem_cons.mp hy with rfl | hy
        · exact hx
        · exact fun hseen => (ih (x :: seen)).2 y hy (List.mem_cons_of_mem x hseen)

theorem jsDedup_nodup {α : Type} [DecidableEq α] (l : List α) :
    (jsDedup l).Nodup :=
  (jsDedupAux_spec l []).1

theorem extractKeywords_nodup (text : List Char) :
    (extractKeywords text).Nodup :=
  jsDedup_nodup _

theorem length_filter_mem_eq_card_inter (qk ck : List (List Char))
    (h : qk.Nodup) :
    (qk.filter (fun w => decide (w ∈ ck))).length =
      (qk.toFinset ∩ ck.toFinset).card := by
  have h1 : (qk.filter (fun w => decide (w ∈ ck))).Nodup := h.filter _
  rw [← List.toFinset_card_of_nodup h1]
  congr 1
  ext a
  simp [List.mem_toFinset, List.mem_filter, Finset.mem_inter]

theorem calculateRelevance_nonneg (qk ck : List (List Char)) :
    0 ≤ calculateRelevance qk ck := by
  unfold calculateRelevance
  positivity

theorem calculateRelevance_le_one (qk ck : List (List Char)) :
    calculateRelevance qk ck ≤ 1 := by
  unfold calculateRelevance
  rw [div_le_one (by positivity)]
  exact_mod_cast le_trans (List.length_filter_le _ qk) (le_max_left _ _)

theorem inter_nonempty_of_relevance_pos {qk ck : List (List Char)}
    (h : 0 < calculateRelevance qk ck) :
    (qk.toFinset ∩ ck.toFinset).Nonempty := by
  unfold calculateRelevance at h
  have hnum : 0 < (qk.filter (fun w => decide (w ∈ ck))).length := by
    by_contra hle
    have h0 : (qk.filter (fun w => decide (w ∈ ck))).length = 0 := by omega
    rw [h0] at h
    simp at h
  obtain ⟨w, hw⟩ := List.exists_mem_of_length_pos hnum
  have hw2 := List.mem_filter.mp hw
  exact ⟨w, Finset.mem_inter.mpr
    ⟨List.mem_toFinset.mpr hw2.1, List.mem_toFinset.mpr (by simpa using hw2.2)⟩⟩

/-- C2.
The relevance of a chunk for a query is `|Q ∩ C| / max(|Q|, 1)` over the
keyword sets, lies in `[0, 1]`, the chunk keyword sets are produced by the
same `extractKeywords` function applied at indexing time, and every
returned result originates from a store entry whose keyword set meets the
query's keyword set — so a chunk with disjoint keywords never appears. -/
theorem relevance_overlap_coefficient (q : List Char) (store : Store) (K : Int)
    (ck : List (List Char)) :
    calculateRelevance (extractKeywords q) ck =
      (((extractKeywords q).toFinset ∩ ck.toFinset).card : ℚ) /
        ((max (extractKeywords q).length 1 : ℕ) : ℚ) ∧
    0 ≤ calculateRelevance (extractKeywords q) ck ∧
    calculateRelevance (extractKeywords q) ck ≤ 1 ∧
    (∀ c : Chunk, (mkEntry c).keywords = extractKeywords c.content) ∧
    ∀ r ∈ searchChunks store q K, ∃ p ∈ store,
      r = resultOf (extractKeywords q) p ∧
      ((extractKeywords q).toFinset ∩ p.2.keywords.toFinset).Nonempty := by
  refine ⟨?_, calculateRelevance_nonneg _ _, calculateRelevance_le_one _ _,
    fun _ => rfl, ?_⟩
  · unfold calculateRelevance
    rw [length_filter_mem_eq_card_inter _ _ (extractKeywords_nodup q)]
  · intro r hr
    have hr2 : r ∈ sortDesc (positiveResults store (extractKeywords q)) := by
      rw [searchChunks, jsSliceTo] at hr
      by_cases h0 : (0 : Int) ≤ K
      · rw [if_pos h0] at hr
        exact List.take_subset _ _ hr
      · rw [if_neg h0] at hr
        exact List.take_subset _ _ hr
    obtain ⟨p, hp, hpos, rfl⟩ := mem_positiveResults.mp (mem_sortDesc.mp hr2)
    exact ⟨p, hp, rfl, inter_nonempty_of_relevance_pos hpos⟩

/-- Witness for C2 at a concrete query, store, `K`, and chunk keyword set. -/
theorem relevance_overlap_coefficient_witness :
    calculateRelevance (extractKeywords "alpha".data) ["alpha".data] =
      (((extractKeywords "alpha".data).toFinset ∩
          (["alpha".data] : List (List Char)).toFinset).card : ℚ) /
        ((max (extractKeywords "alpha".data).length 1 : ℕ) : ℚ) ∧
    0 ≤ calculateRelevance (extractKeywords "alpha".data) ["alpha".data] ∧
    calculateRelevance (extractKeywords "alpha".data) ["alpha".data] ≤ 1 ∧
    (∀ c : Chunk, (mkEntry c).keywords = extractKeywords c.content) ∧
    ∀ r ∈ searchChunks sampleStore "alpha".data 5, ∃ p ∈ sampleStore,
      r = resultOf (extractKeywords "alpha".data) p ∧
      ((extractKeywords "alpha".data).toFinset ∩ p.2.keywords.toFinset).Nonempty :=
  relevance_overlap_coefficient "alpha".data sampleStore 5 ["alpha".data]

/-! ### Lemmas about Map.set -/

theorem filter_map_overwrite :
    ∀ (t : Store) (k : List Char) (v : Entry),
      (t.map Prod.fst).Nodup → k ∈ t.map Prod.fst →
      (t.map (fun p => if p.1 = k then (k, v) else p)).filter
        (fun p => decide (p.1 = k)) = [(k, v)] := by
  intro t
  induction t with
  | nil => intro k v _ hmem; exact absurd hmem (by simp)
  | cons p t ih =>
    intro k v hnodup hmem
    rw [List.map_cons, List.nodup_cons] at hnodup
    by_cases hp : p.1 = k
    · rw [List.map_cons, if_pos hp, List.filter_cons]
      simp only [decide_True, if_true]
      have htail : (t.map (fun p => if p.1 = k then (k, v) else p)).filter
          (fun p => decide (p.1 = k)) = [] := by
        rw [List.filter_eq_nil_iff]
        intro x hx
        obtain ⟨y, hy, rfl⟩ := List.mem_map.mp hx
        by_cases hyk : y.1 = k
        · exact absurd (hp ▸ hyk ▸ List.mem_map_of_mem Prod.fst hy) hnodup.1
        · simp [hyk]
      rw [htail]
    · rw [List.map_cons, if_neg hp, List.filter_cons]
      simp only [decide_eq_true_eq, hp, if_false]
      have hmem2 : k ∈ t.map Prod.fst := by
        rcases List.mem_cons.mp (List.map_cons Prod.fst p t ▸ hmem) with h | h
        · exact absurd h.symm hp
        · exact h
      exact ih k v hnodup.2 hmem2

/-- C7.
Indexing a chunk whose id is already a key of the vector store overwrites
that entry in place: the store size is unchanged, the key sequence is
unchanged, and the unique entry for that id holds the latest chunk and its
freshly extracted keywords. -/
theorem addToVectorStore_overwrites (store : Store) (c : Chunk)
    (hnodup : (store.map Prod.fst).Nodup) (hmem : c.id ∈ store.map Prod.fst) :
    (addToVectorStore store [c]).length = store.length ∧
    (addToVectorStore store [c]).map Prod.fst = store.map Prod.fst ∧
    (addToVectorStore store [c]).filter (fun p => decide (p.1 = c.id)) =
      [(c.id, mkEntry c)] := by
  have hany : store.any (fun p => decide (p.1 = c.id)) = true := by
    rw [List.any_eq_true]
    obtain ⟨p, hp, hfst⟩ := List.mem_map.mp hmem
    exact ⟨p, hp, by simp [hfst]⟩
  have hset : addToVectorStore store [c] =
      store.map (fun p => if p.1 = c.id then (c.id, mkEntry c) else p) := by
    show mapSet store c.id (mkEntry c) = _
    rw [mapSet, if_pos hany]
  rw [hset]
  refine ⟨List.length_map _ _, ?_, filter_map_overwrite store c.id (mkEntry c) hnodup hmem⟩
  rw [List.map_map]
  refine List.map_congr_left (fun p _ => ?_)
  by_cases hp : p.1 = c.id
  · simp [hp]
  · simp [hp]

/-- Witness for C7: re-indexing the sample chunk id in the sample store. -/
theorem addToVectorStore_overwrites_witness :
    (addToVectorStore sampleStore [sampleChunk]).length = sampleStore.length ∧
    (addToVectorStore sampleStore [sampleChunk]).map Prod.fst =
      sampleStore.map Prod.fst ∧
    (addToVectorStore sampleStore [sampleChunk]).filter
      (fun p => decide (p.1 = sampleChunk.id)) = [(sampleChunk.id, mkEntry sampleChunk)] :=
  addToVectorStore_overwrites sampleStore sampleChunk (by decide) (by decide)

/-- C4.
Ingesting the single document `"policy.txt"` with content
`"Reset your password. Use the portal."` and the default `chunkSize = 500`
produces exactly one chunk, and searching `"password"` returns exactly the
one result whose source is `"policy.txt (Page 1)"` and whose relevance is
`1`. -/
theorem endToEnd_policy_scenario :
    (createChunks "Reset your password. Use the portal.".data
      { fileName := "policy.txt".data, fileType := "txt".data, processedAt := [] }
      500 100).length = 1 ∧
    (getStats (processDocument { store := [], documents := [] } []
        "policy.txt".data "Reset your password. Use the portal.".data)) =
      { totalDocuments := 1, totalChunks := 1,
        documents := [("policy.txt".data, 1)] } ∧
    searchChunks (processDocument { store := [], documents := [] } []
        "policy.txt".data "Reset your password. Use the portal.".data).store
      "password".data 5 =
      [{ id := "policy.txt_chunk_1".data
         content := "Reset your password Use the portal".data
         meta := { fileName := "policy.txt".data, fileType := "txt".data,
                   processedAt := [], pageNum := 1, chunkIndex := 1 }
         relevance := 1
         source := "policy.txt (Page 1)".data }] :=
  ⟨by with_unfolding_all rfl, by with_unfolding_all rfl, by with_unfolding_all rfl⟩

/-! ### The tool-invocation boundary -/

theorem jsSliceTo_nil {α : Type} (k : Int) : jsSliceTo ([] : List α) k = [] := by
  unfold jsSliceTo
  split <;> simp

/-- C5.
The `search_documents` tool handler returns exactly one of the three
statuses: `no_results` precisely when the underlying search produced the
empty list (in particular for every query after zero documents were
ingested), `success` with content, sources and summary otherwise, and a
caught exception is returned as an `error` status with its message rather
than re-thrown. -/
theorem searchTool_three_statuses (q : List Char)
    (outcome : Except (List Char) (List RagResult)) (K : Int) (pa : List Char) :
    (statusOf (searchDocumentsTool q outcome) = ToolStatus.noResults ↔
      outcome = Except.ok []) ∧
    (∀ e, searchDocumentsTool q (Except.error e) = ToolResponse.error searchErrText e) ∧
    (∀ rs, rs ≠ [] →
      searchDocumentsTool q (Except.ok rs) =
        ToolResponse.success (successMsg rs.length) q rs.length
          (truncateWith 2000 (formattedResults rs))
          (rs.map (fun r => r.source))
          (truncateWith 400 (formattedResults rs))) ∧
    searchDocumentsTool q
        (Except.ok (searchDocuments (initializeProcessor [] pa).store q K)) =
      ToolResponse.noResults noResultsMsg q := by
  have hempty : searchDocuments (initializeProcessor [] pa).store q K = [] := by
    show (searchChunks ([] : Store) q K).map _ = []
    rw [searchChunks]
    show (jsSliceTo (sortDesc (List.filterMap _ [])) K).map _ = []
    rw [List.filterMap_nil]
    show (jsSliceTo ([] : List SearchResult) K).map _ = []
    rw [jsSliceTo_nil, List.map_nil]
  refine ⟨?_, fun e => rfl, ?_, ?_⟩
  · cases outcome with
    | error e => simp [searchDocumentsTool, statusOf]
    | ok rs =>
      by_cases h : rs.length = 0
      · rw [List.length_eq_zero] at h
        subst h
        simp [searchDocumentsTool, statusOf]
      · rw [searchDocumentsTool, if_neg h]
        simp only [statusOf]
        constructor
        · intro hcon
          exact absurd hcon (by decide)
        · intro hok
          rw [Except.ok.injEq] at hok
          subst hok
          exact absurd rfl h
  · intro rs hrs
    rw [searchDocumentsTool, if_neg (by simpa using hrs)]
  · rw [hempty, searchDocumentsTool]
    rfl

/-- Witness for C5 at a concrete query, outcome, `K`, and timestamp. -/
theorem searchTool_three_statuses_witness :
    (statusOf (searchDocumentsTool "hello".data (Except.ok [])) = ToolStatus.noResults ↔
      (Except.ok [] : Except (List Char) (List RagResult)) = Except.ok []) ∧
    (∀ e, searchDocumentsTool "hello".data (Except.error e) =
      ToolResponse.error searchErrText e) ∧
    (∀ rs, rs ≠ [] →
      searchDocumentsTool "hello".data (Except.ok rs) =
        ToolResponse.success (successMsg rs.length) "hello".data rs.length
          (truncateWith 2000 (formattedResults rs))
          (rs.map (fun r => r.source))
          (truncateWith 400 (formattedResults rs))) ∧
    searchDocumentsTool "hello".data
        (Except.ok (searchDocuments (initializeProcessor [] []).store "hello".data 5)) =
      ToolResponse.noResults noResultsMsg "hello".data :=
  searchTool_three_statuses "hello".data (Except.ok []) 5 []

/-! ### Lemmas about trimming and splitting -/

theorem jsTrim_eq_nil_of_all_space {l : List Char}
    (h : ∀ c ∈ l, isJsSpace c = true) : jsTrim l = [] := by
  unfold jsTrim
  have h1 : l.dropWhile isJsSpace = [] := List.dropWhile_eq_nil_iff.mpr h
  rw [h1]
  rfl

theorem mem_jsTrim_of_not_space {c : Char} {l : List Char}
    (hc : c ∈ l) (hs : isJsSpace c = false) : c ∈ jsTrim l := by
  unfold jsTrim
  have step : ∀ (m : List Char), c ∈ m → c ∈ m.dropWhile isJsSpace := by
    intro m hm
    rcases List.mem_append.mp ((List.takeWhile_append_dropWhile isJsSpace m) ▸ hm) with
      h | h
    · exact absurd (List.mem_takeWhile_imp h) (by simp [hs])
    · exact h
  rw [List.mem_reverse]
  exact step _ (List.mem_reverse.mpr (step _ hc))

theorem jsTrim_ne_nil_of_mem {c : Char} {l : List Char}
    (hc : c ∈ l) (hs : isJsSpace c = false) : jsTrim l ≠ [] :=
  List.ne_nil_of_mem (mem_jsTrim_of_not_space hc hs)

theorem exists_not_space_of_jsTrim_ne_nil {l : List Char}
    (h : jsTrim l ≠ []) : ∃ c ∈ l, isJsSpace c = false := by
  by_contra hcon
  push_neg at hcon
  exact h (jsTrim_eq_nil_of_all_space (fun c hc => by
    have := hcon c hc
    simpa using this))

theorem splitRunsAux_chars (p : Char → Bool) :
    ∀ l : List Char, (splitRunsAux p l).1 ≠ [] ∧
      ∀ frag ∈ (splitRunsAux p l).1, ∀ c ∈ frag, c ∈ l := by
  intro l
  induction l with
  | nil =>
    refine ⟨by simp [splitRunsAux], ?_⟩
    intro frag hfrag c hc
    rw [splitRunsAux] at hfrag
    simp at hfrag
    subst hfrag
    exact absurd hc (by simp)
  | cons c0 cs ih =>
    rw [splitRunsAux]
    by_cases hp : p c0 = true
    · rw [if_pos hp]
      by_cases hflag : (splitRunsAux p cs).2
      · rw [if_pos hflag]
        exact ⟨ih.1, fun frag hfrag c hc =>
          List.mem_cons_of_mem c0 (ih.2 frag hfrag c hc)⟩
      · rw [if_neg hflag]
        refine ⟨by simp, ?_⟩
        intro frag hfrag c hc
        rcases List.mem_cons.mp hfrag with rfl | hfrag
        · exact absurd hc (by simp)
        · exact List.mem_cons_of_mem c0 (ih.2 frag hfrag c hc)
    · rw [if_neg hp]
      refine ⟨by simp, ?_⟩
      intro frag hfrag c hc
      rcases List.mem_cons.mp hfrag with rfl | hfrag
      · rcases List.mem_cons.mp hc with rfl | hc
        · exact List.mem_cons_self c cs
        · refine List.mem_cons_of_mem c0 ?_
          refine ih.2 ((splitRunsAux p cs).1.headD []) ?_ c hc
          rcases hne : (splitRunsAux p cs).1 with _ | ⟨f, fs⟩
          · exact absurd hne ih.1
          · simp
      · refine List.mem_cons_of_mem c0 ?_
        refine ih.2 frag (List.mem_of_mem_tail hfrag) c hc

theorem mem_of_mem_jsSplitRuns {p : Char → Bool} {l : List Char}
    {frag : List Char} (hfrag : frag ∈ jsSplitRuns p l) {c : Char}
    (hc : c ∈ frag) : c ∈ l :=
  (splitRunsAux_chars p l).2 frag hfrag c hc

/-! ### Projections of the chunker loop body -/

theorem chunkAccum_pageNum (meta0 : Metadata) (cs ov : Nat) (st : ChunkState)
    (s : List Char) : (chunkAccum meta0 cs ov st s).pageNum = st.pageNum := by
  unfold chunkAccum
  split <;> rfl

theorem chunkStep_buf (meta0 : Metadata) (cs ov : Nat) (st : ChunkState)
    (sentence : List Char) :
    (chunkStep meta0 cs ov st sentence).buf =
      (chunkAccum meta0 cs ov st (jsTrim sentence)).buf := by
  simp only [chunkStep]
  split <;> rfl

theorem chunkStep_chunks (meta0 : Metadata) (cs ov : Nat) (st : ChunkState)
    (sentence : List Char) :
    (chunkStep meta0 cs ov st sentence).chunks =
      (chunkAccum meta0 cs ov st (jsTrim sentence)).chunks := by
  simp only [chunkStep]
  split <;> rfl

theorem chunkStep_pageNum (meta0 : Metadata) (cs ov : Nat) (st : ChunkState)
    (sentence : List Char) :
    (chunkStep meta0 cs ov st sentence).pageNum =
      (if 300 < (jsSplitChar ' ' (chunkStep meta0 cs ov st sentence).buf).length
        then st.pageNum + 1 else st.pageNum) := by
  rw [chunkStep_buf]
  simp only [chunkStep]
  split <;> simp [chunkAccum_pageNum]

/-! ### C3: the chunk emission algorithm, written from the spec text -/

theorem jsSliceNeg_eq_drop {α : Type} (l : List α) {k : Nat} (hk : k ≠ 0) :
    jsSliceNeg l k = l.drop (l.length - k) := by
  rw [jsSliceNeg, if_neg hk]

theorem chunkFold_bridge (meta0 : Metadata) (cs ov : Nat) (hov : 0 < ov / 5) :
    ∀ (sents : List (List Char)) (st : ChunkState),
      (finalizeChunks meta0 (sents.foldl (chunkStep meta0 cs ov) st)).map
          (fun c => c.content) =
        st.chunks.map (fun c => c.content) ++
          chunkEmitSpec cs ov st.buf (sents.map jsTrim) := by
  intro sents
  induction sents with
  | nil =>
    intro st
    rw [List.foldl_nil, List.map_nil]
    unfold finalizeChunks chunkEmitSpec
    by_cases h : jsTrim st.buf = []
    · rw [if_pos h, if_pos h, List.append_nil]
    · rw [if_neg h, if_neg h, List.map_append]
      rfl
  | cons s rest ih =>
    intro st
    rw [List.foldl_cons, List.map_cons, ih (chunkStep meta0 cs ov st s),
      chunkStep_chunks, chunkStep_buf]
    by_cases hc : cs < st.buf.length + (jsTrim s).length ∧ 0 < st.buf.length
    · have hbufne : st.buf ≠ [] := by
        intro hnil
        rw [hnil] at hc
        exact absurd hc.2 (by simp)
      rw [chunkAccum, if_pos hc]
      rw [chunkEmitSpec, if_pos ⟨hc.1, hbufne⟩]
      show (st.chunks ++ [emitChunk meta0 st]).map (fun c => c.content) ++
          chunkEmitSpec cs ov
            (List.intercalate [' ']
              (jsSliceNeg (jsSplitChar ' ' st.buf) (ov / 5)) ++ ' ' :: jsTrim s)
            (rest.map jsTrim) = _
      rw [jsSliceNeg_eq_drop _ (Nat.pos_iff_ne_zero.mp hov), List.map_append,
        List.append_assoc]
      rfl
    · have hnegspec : ¬(cs < st.buf.length + (jsTrim s).length ∧ st.buf ≠ []) := by
        intro hcon
        exact hc ⟨hcon.1, List.length_pos.mpr hcon.2⟩
      rw [chunkAccum, if_neg hc, chunkEmitSpec, if_neg hnegspec]

/-- C3.
The chunker splits content on `.`, `!`, `?`, discards fragments empty
after trimming, and accumulates sentences into a buffer; whenever
appending the next sentence would push the buffer length past `chunkSize`
with a non-empty buffer, the buffer is emitted and the new buffer is
seeded with its last `floor(overlap/5)` words followed by the triggering
sentence; the final non-empty buffer is always emitted.  Stated as: the
emitted contents of `createChunks` equal the chunk sequence of the
spec-side algorithm (for `overlap ≥ 5`, so that `floor(overlap/5)` words
are a well-defined non-trivial tail; the default is `overlap = 100`). -/
theorem createChunks_refines_spec (content : List Char) (meta0 : Metadata)
    (cs ov : Nat) (hov : 0 < ov / 5) :
    (createChunks content meta0 cs ov).map (fun c => c.content) =
      createChunksSpec content cs ov := by
  unfold createChunks createChunksSpec
  rw [chunkFold_bridge meta0 cs ov hov]
  rfl

/-- Witness for C3 at concrete content and the default sizes. -/
theorem createChunks_refines_spec_witness :
    0 < 100 / 5 ∧
    (createChunks "Hello there world. Goodbye planet!".data
        { fileName := "f.txt".data, fileType := "txt".data, processedAt := [] }
        500 100).map (fun c => c.content) =
      createChunksSpec "Hello there world. Goodbye planet!".data 500 100 :=
  ⟨by norm_num,
    createChunks_refines_spec "Hello there world. Goodbye planet!".data
      { fileName := "f.txt".data, fileType := "txt".data, processedAt := [] }
      500 100 (by norm_num)⟩

theorem emit_preserves (meta0 : Metadata) (st : ChunkState)
    (hbuf : ∃ c ∈ st.buf, isJsSpace c = false)
    (hne : ∀ c ∈ st.chunks, jsTrim c.content ≠ [])
    (hidx : st.chunks.map (fun c => c.meta.chunkIndex) = List.range' 1 st.chunks.length)
    (hids : st.chunks.map (fun c => c.id) =
      (List.range' 1 st.chunks.length).map (chunkIdString meta0)) :
    (∀ c ∈ st.chunks ++ [emitChunk meta0 st], jsTrim c.content ≠ []) ∧
    (st.chunks ++ [emitChunk meta0 st]).map (fun c => c.meta.chunkIndex) =
      List.range' 1 (st.chunks ++ [emitChunk meta0 st]).length ∧
    (st.chunks ++ [emitChunk meta0 st]).map (fun c => c.id) =
      (List.range' 1 (st.chunks ++ [emitChunk meta0 st]).length).map
        (chunkIdString meta0) := by
  obtain ⟨c0, hc0, hcs⟩ := hbuf
  have hcontent : jsTrim (emitChunk meta0 st).content ≠ [] := by
    show jsTrim (jsTrim st.buf) ≠ []
    exact jsTrim_ne_nil_of_mem (mem_jsTrim_of_not_space hc0 hcs) hcs
  have hlen : (st.chunks ++ [emitChunk meta0 st]).length = st.chunks.length + 1 := by
    simp
  refine ⟨?_, ?_, ?_⟩
  · intro c hc
    rcases List.mem_append.mp hc with hc | hc
    · exact hne c hc
    · rw [List.mem_singleton.mp hc]
      exact hcontent
  · rw [hlen, List.range'_concat, List.map_append, hidx]
    congr 1
    show [(emitChunk meta0 st).meta.chunkIndex] = [1 + 1 * st.chunks.length]
    simp [emitChunk, Nat.add_comm]
  · rw [hlen, List.range'_concat, List.map_append, List.map_append, hids]
    congr 1
    show [(emitChunk meta0 st).id] = [chunkIdString meta0 (1 + 1 * st.chunks.length)]
    simp only [List.cons.injEq, and_true]
    show chunkIdString meta0 (st.chunks.length + 1) = _
    congr 1
    omega

theorem chunkStep_preserves_inv (meta0 : Metadata) (cs ov : Nat)
    (st : ChunkState) (s : List Char) (hs : jsTrim s ≠ [])
    (hinv : ChunkInv meta0 st) : ChunkInv meta0 (chunkStep meta0 cs ov st s) := by
  obtain ⟨cb, hcb, hcbs⟩ : ∃ c ∈ jsTrim s, isJsSpace c = false := by
    obtain ⟨c, hc, hcs⟩ := exists_not_space_of_jsTrim_ne_nil hs
    exact ⟨c, mem_jsTrim_of_not_space hc hcs, hcs⟩
  obtain ⟨hbuf, hne, hidx, hids⟩ := hinv
  rw [ChunkInv, chunkStep_chunks, chunkStep_buf]
  by_cases hc : cs < st.buf.length + (jsTrim s).length ∧ 0 < st.buf.length
  · rw [chunkAccum, if_pos hc]
    have hbufex : ∃ c ∈ st.buf, isJsSpace c = false := by
      rcases hbuf with hnil | hex
      · rw [hnil] at hc
        exact absurd hc.2 (by simp)
      · exact hex
    obtain ⟨h1, h2, h3⟩ := emit_preserves meta0 st hbufex hne hidx hids
    exact ⟨Or.inr ⟨cb, by
      refine List.mem_append.mpr (Or.inr ?_)
      exact List.mem_cons_of_mem ' ' hcb, hcbs⟩, h1, h2, h3⟩
  · rw [chunkAccum, if_neg hc]
    refine ⟨Or.inr ⟨cb, ?_, hcbs⟩, hne, hidx, hids⟩
    show cb ∈ if st.buf = [] then jsTrim s else st.buf ++ ' ' :: jsTrim s
    by_cases hb : st.buf = []
    · rw [if_pos hb]
      exact hcb
    · rw [if_neg hb]
      exact List.mem_append.mpr (Or.inr (List.mem_cons_of_mem ' ' hcb))

theorem foldl_preserves_inv (meta0 : Metadata) (cs ov : Nat) :
    ∀ (sents : List (List Char)) (st : ChunkState),
      (∀ x ∈ sents, jsTrim x ≠ []) → ChunkInv meta0 st →
      ChunkInv meta0 (sents.foldl (chunkStep meta0 cs ov) st) := by
  intro sents
  induction sents with
  | nil => intro st _ hinv; exact hinv
  | cons x xs ih =>
    intro st hall hinv
    rw [List.foldl_cons]
    exact ih _ (fun y hy => hall y (List.mem_cons_of_mem x hy))
      (chunkStep_preserves_inv meta0 cs ov st x (hall x (List.mem_cons_self x xs)) hinv)

/-- C8.
Every chunk emitted by `createChunks` has non-empty content after
trimming, the `i`-th emitted chunk (1-based) has id
`"<fileName>_chunk_<i>"` and `chunkIndex = i`, and content consisting
entirely of whitespace yields an empty chunk sequence. -/
theorem createChunks_wellformed (content : List Char) (meta0 : Metadata)
    (cs ov : Nat) :
    (∀ c ∈ createChunks content meta0 cs ov, jsTrim c.content ≠ []) ∧
    (createChunks content meta0 cs ov).map (fun c => c.meta.chunkIndex) =
      List.range' 1 (createChunks content meta0 cs ov).length ∧
    (createChunks content meta0 cs ov).map (fun c => c.id) =
      (List.range' 1 (createChunks content meta0 cs ov).length).map
        (chunkIdString meta0) ∧
    ((∀ ch ∈ content, isJsSpace ch = true) →
      createChunks content meta0 cs ov = []) := by
  have hsents : ∀ x ∈ (jsSplitRuns isSentEnd content).filter
      (fun s => decide (jsTrim s ≠ [])), jsTrim x ≠ [] := by
    intro x hx
    have := List.of_mem_filter hx
    simpa using this
  have hinv := foldl_preserves_inv meta0 cs ov
    ((jsSplitRuns isSentEnd content).filter (fun s => decide (jsTrim s ≠ [])))
    { chunks := [], buf := [], pageNum := 1 } hsents
    ⟨Or.inl rfl, by simp, by simp, by simp⟩
  obtain ⟨hbuf, hne, hidx, hids⟩ := hinv
  set fin := ((jsSplitRuns isSentEnd content).filter
    (fun s => decide (jsTrim s ≠ []))).foldl (chunkStep meta0 cs ov)
    { chunks := [], buf := [], pageNum := 1 } with hfin
  have hcc : createChunks content meta0 cs ov = finalizeChunks meta0 fin := rfl
  refine ⟨?_, ?_, ?_, ?_⟩
  · rw [hcc, finalizeChunks]
    by_cases h : jsTrim fin.buf = []
    · rw [if_pos h]
      exact hne
    · rw [if_neg h]
      have hbufex : ∃ c ∈ fin.buf, isJsSpace c = false := by
        rcases hbuf with hnil | hex
        · rw [hnil] at h
          exact absurd rfl h
        · exact hex
      exact (emit_preserves meta0 fin hbufex hne hidx hids).1
  · rw [hcc, finalizeChunks]
    by_cases h : jsTrim fin.buf = []
    · rw [if_pos h]
      exact hidx
    · rw [if_neg h]
      have hbufex : ∃ c ∈ fin.buf, isJsSpace c = false := by
        rcases hbuf with hnil | hex
        · rw [hnil] at h
          exact absurd rfl h
        · exact hex
      exact (emit_preserves meta0 fin hbufex hne hidx hids).2.1
  · rw [hcc, finalizeChunks]
    by_cases h : jsTrim fin.buf = []
    · rw [if_pos h]
      exact hids
    · rw [if_neg h]
      have hbufex : ∃ c ∈ fin.buf, isJsSpace c = false := by
        rcases hbuf with hnil | hex
        · rw [hnil] at h
          exact absurd rfl h
        · exact hex
      exact (emit_preserves meta0 fin hbufex hne hidx hids).2.2
  · intro hws
    have hfilter : (jsSplitRuns isSentEnd content).filter
        (fun s => decide (jsTrim s ≠ [])) = [] := by
      rw [List.filter_eq_nil_iff]
      intro frag hfrag
      simp only [decide_eq_true_eq, not_not]
      refine jsTrim_eq_nil_of_all_space (fun c hc => ?_)
      exact hws c (mem_of_mem_jsSplitRuns hfrag hc)
    rw [hcc, hfin, hfilter]
    rfl

/-- Witness for C8 at concrete content (the whitespace-only part is
exercised at the all-space string `" "`). -/
theorem createChunks_wellformed_witness :
    (∀ c ∈ createChunks " ".data sampleMeta0 500 100, jsTrim c.content ≠ []) ∧
    (createChunks " ".data sampleMeta0 500 100).map (fun c => c.meta.chunkIndex) =
      List.range' 1 (createChunks " ".data sampleMeta0 500 100).length ∧
    (createChunks " ".data sampleMeta0 500 100).map (fun c => c.id) =
      (List.range' 1 (createChunks " ".data sampleMeta0 500 100).length).map
        (chunkIdString sampleMeta0) ∧
    ((∀ ch ∈ " ".data, isJsSpace ch = true) →
      createChunks " ".data sampleMeta0 500 100 = []) :=
  createChunks_wellformed " ".data sampleMeta0 500 100

theorem emit_page_props (meta0 : Metadata) (st : ChunkState) (h : PageInv st) :
    (∀ c ∈ st.chunks ++ [emitChunk meta0 st],
      1 ≤ c.meta.pageNum ∧ c.meta.pageNum ≤ st.pageNum) ∧
    ((st.chunks ++ [emitChunk meta0 st]).map (fun c => c.meta.pageNum)).Pairwise
      (· ≤ ·) := by
  obtain ⟨h1, h2, h3⟩ := h
  constructor
  · intro c hc
    rcases List.mem_append.mp hc with hc | hc
    · exact h2 c hc
    · rw [List.mem_singleton.mp hc]
      exact ⟨h1, le_rfl⟩
  · rw [List.map_append, List.pairwise_append]
    refine ⟨h3, by simp, ?_⟩
    intro a ha b hb
    obtain ⟨c, hc, rfl⟩ := List.mem_map.mp ha
    have hb2 : b = st.pageNum := by
      simpa [emitChunk] using hb
    rw [hb2]
    exact (h2 c hc).2

theorem chunkAccum_preserves_page (meta0 : Metadata) (cs ov : Nat)
    (st : ChunkState) (s : List Char) (h : PageInv st) :
    PageInv (chunkAccum meta0 cs ov st s) := by
  obtain ⟨h1, h2, h3⟩ := h
  unfold chunkAccum
  by_cases hc : cs < st.buf.length + s.length ∧ 0 < st.buf.length
  · rw [if_pos hc]
    obtain ⟨hb, hp⟩ := emit_page_props meta0 st ⟨h1, h2, h3⟩
    exact ⟨h1, hb, hp⟩
  · rw [if_neg hc]
    exact ⟨h1, h2, h3⟩

theorem chunkStep_preserves_page (meta0 : Metadata) (cs ov : Nat)
    (st : ChunkState) (sen : List Char) (h : PageInv st) :
    PageInv (chunkStep meta0 cs ov st sen) := by
  have haccum := chunkAccum_preserves_page meta0 cs ov st (jsTrim sen) h
  obtain ⟨h1, h2, h3⟩ := haccum
  simp only [chunkStep]
  split
  · exact ⟨le_trans h1 (Nat.le_succ _),
      fun c hc => ⟨(h2 c hc).1, le_trans (h2 c hc).2 (Nat.le_succ _)⟩, h3⟩
  · exact ⟨h1, h2, h3⟩

theorem foldl_preserves_page (meta0 : Metadata) (cs ov : Nat) :
    ∀ (sents : List (List Char)) (st : ChunkState), PageInv st →
      PageInv (sents.foldl (chunkStep meta0 cs ov) st) := by
  intro sents
  induction sents with
  | nil => intro st h; exact h
  | cons x xs ih =>
    intro st h
    rw [List.foldl_cons]
    exact ih _ (chunkStep_preserves_page meta0 cs ov st x h)

/-- C9.
The page counter starts at 1, is incremented exactly when the running
buffer's space-separated word count exceeds 300, and is never reset or
decremented; consequently the page numbers carried by a document's chunks
are at least 1 and monotonically non-decreasing in chunk order. -/
theorem createChunks_pageNum_monotone (content : List Char) (meta0 : Metadata)
    (cs ov : Nat) :
    (∀ (st : ChunkState) (sen : List Char),
      (chunkStep meta0 cs ov st sen).pageNum =
        (if 300 < (jsSplitChar ' ' (chunkStep meta0 cs ov st sen).buf).length
          then st.pageNum + 1 else st.pageNum)) ∧
    ((createChunks content meta0 cs ov).map (fun c => c.meta.pageNum)).Pairwise
      (· ≤ ·) ∧
    (∀ c ∈ createChunks content meta0 cs ov, 1 ≤ c.meta.pageNum) := by
  have hfin := foldl_preserves_page meta0 cs ov
    ((jsSplitRuns isSentEnd content).filter (fun s => decide (jsTrim s ≠ [])))
    { chunks := [], buf := [], pageNum := 1 } ⟨le_rfl, by simp, by simp⟩
  set fin := ((jsSplitRuns isSentEnd content).filter
    (fun s => decide (jsTrim s ≠ []))).foldl (chunkStep meta0 cs ov)
    { chunks := [], buf := [], pageNum := 1 } with hfindef
  have hcc : createChunks content meta0 cs ov = finalizeChunks meta0 fin := rfl
  refine ⟨fun st sen => chunkStep_pageNum meta0 cs ov st sen, ?_, ?_⟩
  · rw [hcc, finalizeChunks]
    by_cases h : jsTrim fin.buf = []
    · rw [if_pos h]
      exact hfin.2.2
    · rw [if_neg h]
      exact (emit_page_props meta0 fin hfin).2
  · rw [hcc, finalizeChunks]
    by_cases h : jsTrim fin.buf = []
    · rw [if_pos h]
      exact fun c hc => (hfin.2.1 c hc).1
    · rw [if_neg h]
      exact fun c hc => ((emit_page_props meta0 fin hfin).1 c hc).1

/-- Witness for C9 at concrete content and the default sizes. -/
theorem createChunks_pageNum_monotone_witness :
    (∀ (st : ChunkState) (sen : List Char),
      (chunkStep sampleMeta0 500 100 st sen).pageNum =
        (if 300 < (jsSplitChar ' ' (chunkStep sampleMeta0 500 100 st sen).buf).length
          then st.pageNum + 1 else st.pageNum)) ∧
    ((createChunks "Hello there world. Goodbye planet.".data sampleMeta0 500 100).map
      (fun c => c.meta.pageNum)).Pairwise (· ≤ ·) ∧
    (∀ c ∈ createChunks "Hello there world. Goodbye planet.".data sampleMeta0 500 100,
      1 ≤ c.meta.pageNum) :=
  createChunks_pageNum_monotone "Hello there world. Goodbye planet.".data
    sampleMeta0 500 100

/-- Counterexample to C6 as stated: a `.docx` file whose library
extraction throws is NOT skipped — `extractWordText` catches the error and
returns the bracketed placeholder text, which is non-empty, so the batch
ingests it as a document (here: one Document record with the placeholder
content, where the claim requires zero). -/
theorem ingestion_docx_error_not_skipped :
    extractedContent (FetchOutcome.ok failingDocxFile) "x.docx".data =
      some "[Error extracting text from Word document: boom]".data ∧
    (initializeProcessor
        [("x.docx".data, FetchOutcome.ok failingDocxFile)] []).documents.length = 1 ∧
    (initializeProcessor
        [("x.docx".data, FetchOutcome.ok failingDocxFile)] []).documents.map
      (fun d => d.fileName) = ["x.docx".data] :=
  ⟨rfl, rfl, rfl⟩

/-- C6 (amended).
A document of the batch whose extraction yields no text (a failed or
non-ok fetch, an unsupported extension, or a `.txt` file whose read
throws) or only empty/whitespace text is skipped and contributes no
Document record, no chunks, and no stats, while the remaining documents of
the batch are processed exactly as if the skipped file were absent; the
batch function is total, so no exception escapes.  (A `.docx`/`.doc` file
whose library extraction throws is instead ingested with placeholder error
text — see the counterexample.) -/
theorem ingestion_skips_failed_extraction
    (pre post : List (List Char × FetchOutcome)) (fn : List Char)
    (out : FetchOutcome) (pa : List Char)
    (h : ∀ content, extractedContent out fn = some content → jsTrim content = []) :
    initializeProcessor (pre ++ (fn, out) :: post) pa =
      initializeProcessor (pre ++ post) pa := by
  have hload : loadAssetsDocuments (pre ++ (fn, out) :: post) =
      loadAssetsDocuments (pre ++ post) := by
    unfold loadAssetsDocuments
    rw [List.foldl_append, List.foldl_append, List.foldl_cons]
    congr 1
    show loadStep (List.foldl loadStep [] pre) (fn, out) = List.foldl loadStep [] pre
    rcases he : extractedContent (fn, out).2 (fn, out).1 with _ | content
    · simp only [loadStep, he]
    · simp only [loadStep, he]
      rw [if_pos (h content he)]
  unfold initializeProcessor
  rw [hload]

/-- Witness for C6: a batch where a `.txt` file fails extraction and
another succeeds equals the batch of the successful file alone, so the
stats reflect exactly the successful file. -/
theorem ingestion_skips_failed_extraction_witness :
    initializeProcessor
        [("bad.txt".data, FetchOutcome.ok failingTxtFile),
         ("good.txt".data, FetchOutcome.ok goodTxtFile)] [] =
      initializeProcessor [("good.txt".data, FetchOutcome.ok goodTxtFile)] [] :=
  ingestion_skips_failed_extraction []
    [("good.txt".data, FetchOutcome.ok goodTxtFile)] "bad.txt".data
    (FetchOutcome.ok failingTxtFile) []
    (fun _ hc => Option.noConfusion hc)

end DocProc

